import Mathlib

/-!
Verification of the jird compiler core (src/jird): the rational-algebra
music representation, the tempering engine, the MIDI backend and the
lilypond duration decomposition, shallowly embedded in Lean 4.

Python floats are modelled by real numbers, exact `Fraction` values by `ℚ`.
Python functions that can raise (assert failures, `ValueError`,
`NotImplementedError`, crashes on malformed structure) are modelled as
`Option`-returning functions, `none` standing for the raised error.
-/

namespace Jird

/-- Python constant `DIVISION = 960 * 7`: midi ticks per quarter note. -/
def DIVISION : ℕ := 960 * 7

/-- Python constant `PITCH_BEND_MAX = 0x3FFF`. -/
def PITCH_BEND_MAX : ℤ := 0x3FFF

/-- Python constant `PITCH_BEND_CENTER = 0x2000`. -/
def PITCH_BEND_CENTER : ℤ := 0x2000

/-- Python constant `MIDDLE_C_FREQUENCY = 2 ** (-9 / 12) * 440`. -/
noncomputable def MIDDLE_C_FREQUENCY : ℝ := 2 ^ (-(9 : ℝ) / 12) * 440

/-- The duration or volume of a `Note`: in the source a value of type
`Union[RatioProduct, Fraction]`.  A `RatioProduct` keeps the tuple of its
rational factors. -/
inductive Quantity where
  | ratioProduct : List ℚ → Quantity
  | frac : ℚ → Quantity
deriving DecidableEq, Repr

/-- Source `RatioProduct.evaluate` / plain `Fraction`: the exact rational value. -/
def Quantity.evaluate : Quantity → ℚ
  | .ratioProduct rs => rs.prod
  | .frac q => q

/-- The frequency of a `Note`: `Union[RatioProduct, Fraction, Power]`.
`power b m n` is the source dataclass `Power(base=b, exponent_numerator=m,
exponent_denominator=n)` representing `b ** (m / n)`. -/
inductive Freq where
  | ratioProduct : List ℚ → Freq
  | frac : ℚ → Freq
  | power : ℤ → ℤ → ℤ → Freq
deriving DecidableEq, Repr

/-- Source `evaluate` on a frequency.  A `RatioProduct` or `Fraction` evaluates to
its rational value; `Power.evaluate` is the float `base ** (num / den)`,
modelled with real `rpow`. -/
noncomputable def Freq.evaluate : Freq → ℝ
  | .ratioProduct rs => (rs.prod : ℝ)
  | .frac q => (q : ℝ)
  | .power b m n => (b : ℝ) ^ ((m : ℝ) / (n : ℝ))

/-- The source dataclass `Note(frequency, duration, volume)`. -/
structure Note where
  frequency : Freq
  duration : Quantity
  volume : Quantity
deriving DecidableEq, Repr

/-- The recursive `Music` union: `Note`, tuple (`Chord` / `Piece`) or list
(`Part`).  The analysis functions in `core.py` branch on exactly these three
dynamic shapes (`Note` / `tuple` / `list`). -/
inductive Music where
  | note : Note → Music
  | tup : List Music → Music
  | lst : List Music → Music

/-- Sequential evaluation of a Python loop of fallible calls: `none` as soon
as one call raises.  Used in place of the various comprehensions over music
whose element handling can raise. -/
def optList {α β : Type} (f : α → Option β) : List α → Option (List β)
  | [] => some []
  | x :: xs =>
    match f x with
    | none => none
    | some y =>
      match optList f xs with
      | none => none
      | some ys => some (y :: ys)

mutual
/-- Source `apply_to_notes(music, f)` (for a note-to-note `f`): rebuild the same
tuple/list structure with `f` applied to every note. -/
def apply_to_notes (f : Note → Note) : Music → Music
  | .note n => .note (f n)
  | .tup ms => .tup (applyList f ms)
  | .lst ms => .lst (applyList f ms)

def applyList (f : Note → Note) : List Music → List Music
  | [] => []
  | m :: ms => apply_to_notes f m :: applyList f ms
end

/-- Source `temper_note(note, edo)`: a rest is returned unchanged; the frequency of
a sounding note is replaced by `Power(2, n, edo)` where for a
`RatioProduct` the per-factor steps `round(edo * log2(factor))` are summed
and otherwise `n = round(edo * log2(evaluate(frequency)))`. -/
noncomputable def temper_note (edo : ℤ) (note : Note) : Note :=
  open Classical in
  if note.frequency.evaluate = 0 then note
  else
    Note.mk
      (match note.frequency with
       | .ratioProduct rs =>
           Freq.power 2 ((rs.map fun x => round ((edo : ℝ) * Real.logb 2 (x : ℝ))).sum) edo
       | f => Freq.power 2 (round ((edo : ℝ) * Real.logb 2 f.evaluate)) edo)
      note.duration note.volume

/-- Source `temper(music, edo)`: identity when `edo is None`, otherwise
`apply_to_notes(music, partial(temper_note, edo=edo))`. -/
noncomputable def temper (music : Music) (edo : Option ℤ) : Music :=
  match edo with
  | none => music
  | some e => apply_to_notes (temper_note e) music

mutual
/-- Source `total_duration(music)`: the evaluated duration of a note, the sum over
a list, the maximum over a nonempty tuple and `0` over an empty one. -/
def total_duration : Music → ℚ
  | .note n => n.duration.evaluate
  | .tup ms => durMax ms
  | .lst ms => durSum ms

/-- Source `max(total_duration(x) for x in music) if music else 0` over a tuple. -/
def durMax : List Music → ℚ
  | [] => 0
  | [m] => total_duration m
  | m :: ms => max (total_duration m) (durMax ms)

/-- Source `sum(total_duration(x) for x in music) if music else 0` over a list. -/
def durSum : List Music → ℚ
  | [] => 0
  | m :: ms => total_duration m + durSum ms
end

mutual
/-- Source `height(music)`: 0 for an empty tuple/list, 1 for a note, the sum over
a tuple and the maximum over a list. -/
def height : Music → ℕ
  | .note _ => 1
  | .tup ms => heightSum ms
  | .lst ms => heightMax ms

/-- Source `sum(height(x) for x in music)` over a tuple (0 when empty). -/
def heightSum : List Music → ℕ
  | [] => 0
  | m :: ms => height m + heightSum ms

/-- Source `max(height(x) for x in music)` over a list (0 when empty). -/
def heightMax : List Music → ℕ
  | [] => 0
  | m :: ms => max (height m) (heightMax ms)
end

open Classical in
mutual
/-- Source `frequencies_set(music)`: the set of nonzero evaluated frequencies. -/
noncomputable def frequencies_set : Music → Finset ℝ
  | .note n => if n.frequency.evaluate = 0 then ∅ else {n.frequency.evaluate}
  | .tup ms => freqUnion ms
  | .lst ms => freqUnion ms

/-- Union of the frequency sets of the members of a tuple or list. -/
noncomputable def freqUnion : List Music → Finset ℝ
  | [] => ∅
  | m :: ms => frequencies_set m ∪ freqUnion ms
end

/-- Source `all_frequencies(music) = sorted(frequencies_set(music))`. -/
noncomputable def all_frequencies (music : Music) : List ℝ :=
  (frequencies_set music).sort (· ≤ ·)

mutual
/-- Source `lowest(music)`: the minimum nonzero evaluated frequency, `+inf` (the
top of `EReal`) for an empty value or a rest. -/
noncomputable def lowest : Music → EReal
  | .note n =>
      open Classical in
      if n.frequency.evaluate = 0 then ⊤ else ((n.frequency.evaluate : ℝ) : EReal)
  | .tup ms => if ms.isEmpty then ⊤ else lowMin ms
  | .lst ms => if ms.isEmpty then ⊤ else lowMin ms

/-- Source `min(lowest(x) for x in music)` over a nonempty tuple or list. -/
noncomputable def lowMin : List Music → EReal
  | [] => ⊤
  | [m] => lowest m
  | m :: ms => min (lowest m) (lowMin ms)
end

mutual
/-- Every note of the music is a rest (zero evaluated frequency); an empty
tuple or list holds vacuously. -/
def onlyRests : Music → Prop
  | .note n => n.frequency.evaluate = 0
  | .tup ms => restsList ms
  | .lst ms => restsList ms

/-- Source `onlyRests` for each member of a tuple or list. -/
def restsList : List Music → Prop
  | [] => True
  | m :: ms => onlyRests m ∧ restsList ms
end

mutual
/-- Some note of the music carries an already-tempered frequency (a
`Power`). -/
def hasTempered : Music → Bool
  | .note n =>
      match n.frequency with
      | .power _ _ _ => true
      | _ => false
  | .tup ms => temperedList ms
  | .lst ms => temperedList ms

/-- Source `hasTempered` for some member of a tuple or list. -/
def temperedList : List Music → Bool
  | [] => false
  | m :: ms => hasTempered m || temperedList ms
end

/-- Source `RatioProduct(multiplier) * frequency` inside `mult_expr`:
`RatioProduct.__mul__` concatenates the factor tuples after coercing the
right operand with the `RatioProduct` constructor, which accepts a tuple, a
`Fraction` or a `RatioProduct` and raises `ValueError` on a `Power`. -/
def ratioProductMul (rs : List ℚ) : Freq → Option Freq
  | .ratioProduct rs2 => some (.ratioProduct (rs ++ rs2))
  | .frac q => some (.ratioProduct (rs ++ [q]))
  | .power _ _ _ => none

mutual
/-- Source `NoteTransformer.mult_expr` restricted to one multiplier ratio product:
left-multiply the frequency of every note by `rs`, keeping duration and
volume; raises (`none`) as soon as a note frequency is a `Power`. -/
def mult_expr (rs : List ℚ) : Music → Option Music
  | .note n =>
      match ratioProductMul rs n.frequency with
      | none => none
      | some f => some (.note (Note.mk f n.duration n.volume))
  | .tup ms =>
      match multList rs ms with
      | none => none
      | some ms2 => some (.tup ms2)
  | .lst ms =>
      match multList rs ms with
      | none => none
      | some ms2 => some (.lst ms2)

/-- Source `mult_expr` applied to every member of a tuple or list. -/
def multList (rs : List ℚ) : List Music → Option (List Music)
  | [] => some []
  | m :: ms =>
      match mult_expr rs m with
      | none => none
      | some m2 =>
        match multList rs ms with
        | none => none
        | some ms2 => some (m2 :: ms2)
end

/-- The 7-bit groups of the bits of `n`, most significant first: the
base-128 digits of `n` (one digit, `[n]`, when `n < 128`; the source pads
the bit string of `n` to a whole number of 7-bit groups, which yields
exactly these digits). -/
def vlqChunks (n : ℕ) : List ℕ :=
  if n < 128 then [n] else vlqChunks (n / 128) ++ [n % 128]
decreasing_by exact Nat.div_lt_self (by omega) (by omega)

/-- Set the top bit of every byte except the last, as
`variable_length_quantity` does when assembling its bytes. -/
def markBytes : List ℕ → List ℕ
  | [] => []
  | [b] => [b]
  | b :: bs => (b + 128) :: markBytes bs

/-- Source `variable_length_quantity(n)`: the 7-bit groups of `n`, one per byte,
top bit set on all but the last byte. -/
def variable_length_quantity (n : ℕ) : List ℕ :=
  markBytes (vlqChunks n)

/-- The standard variable-length-quantity decoder: seven value bits per
byte, most significant group first. -/
def vlqDecode (bytes : List ℕ) : ℕ :=
  bytes.foldl (fun acc b => 128 * acc + b % 128) 0

/-- Source `_factorize(n)` in `lilypond.py`: the largest power of two dividing
`n` together with the remaining odd factor. -/
def factorize (n : ℕ) : ℕ × ℕ :=
  if h : 2 ∣ n ∧ n ≠ 0 then
    let p := factorize (n / 2)
    (2 * p.1, p.2)
  else (1, n)
decreasing_by exact Nat.div_lt_self (Nat.pos_of_ne_zero h.2) (by omega)

/-- The fixed table `DURATIONS` of basic lilypond note lengths, in
quarter-note beats, descending. -/
def DURATIONS : List ℚ :=
  [4, 2, 1, 1 / 2, 1 / 4, 1 / 8, 1 / 16, 1 / 32]

/-- The `divmod` loop of `lilypond_duration`: for each table entry `d` in
order, the integer quotient of the remaining residual by `d` and the new
remainder.  Returns the list of (entry, coefficient) pairs and the final
remainder. -/
def duration_coeffs : ℚ → List ℚ → List (ℚ × ℤ) × ℚ
  | t, [] => ([], t)
  | t, d :: ds =>
    let c : ℤ := ⌊t / d⌋
    let rest := duration_coeffs (t - d * c) ds
    ((d, c) :: rest.1, rest.2)

/-- One duration symbol per copy of each matched table entry, in table
order: the list of lilypond notes that are tied together. -/
def expandCoeffs : List (ℚ × ℤ) → List ℚ
  | [] => []
  | p :: ps => List.replicate p.2.toNat p.1 ++ expandCoeffs ps

/-- The result of `lilypond_duration`: the tied duration symbols (as their
table values) and, when the odd factor is not 1, the `O:R` tuplet the chain
is wrapped in. -/
structure LilyDur where
  symbols : List ℚ
  tuplet : Option (ℕ × ℕ)
deriving DecidableEq, Repr

/-- Source `lilypond_duration(note)`: assert the evaluated duration positive,
split the denominator into a power of two `P` and odd factor `O`, rescale
by `R = 2 ** floor(log2(O))`, write `numerator / (P * R)` as a sum of
table entries by repeated divmod (fatal, `none`, if a remainder is left),
and wrap in an `O:R` tuplet when `O ≠ 1`. -/
def lilypond_duration (note : Note) : Option LilyDur :=
  let duration := note.duration.evaluate
  if duration ≤ 0 then none
  else
    let po := factorize duration.den
    let rescale : ℕ := 2 ^ Nat.log 2 po.2
    let to_divide : ℚ := (duration.num : ℚ) / ((po.1 : ℚ) * (rescale : ℚ))
    let res := duration_coeffs to_divide DURATIONS
    if res.2 ≠ 0 then none
    else some ⟨expandCoeffs res.1, if po.2 = 1 then none else some (po.2, rescale)⟩

/-- The duration decomposition as the specification sentence words it,
for comparison with `lilypond_duration`: identical except that the
residual is the whole duration `d` divided by `P * R` (the source divides
only the numerator of `d` by `P * R`). -/
def lilypond_duration_specResidual (note : Note) : Option LilyDur :=
  let duration := note.duration.evaluate
  if duration ≤ 0 then none
  else
    let po := factorize duration.den
    let rescale : ℕ := 2 ^ Nat.log 2 po.2
    let to_divide : ℚ := duration / ((po.1 : ℚ) * (rescale : ℚ))
    let res := duration_coeffs to_divide DURATIONS
    if res.2 ≠ 0 then none
    else some ⟨expandCoeffs res.1, if po.2 = 1 then none else some (po.2, rescale)⟩

/-- The residual the source hands to the divmod chain: the numerator of
the duration divided by `P * R`. -/
def lily_residual (q : ℚ) : ℚ :=
  (q.num : ℚ) / (((factorize q.den).1 : ℚ)
    * ((2 ^ Nat.log 2 (factorize q.den).2 : ℕ) : ℚ))

/-- The midi data of one note: the fields of the `MidiNote` dataclass. -/
structure MidiNote where
  pitch : ℤ
  bend : Option ℤ
  ticks : ℤ
  velocity : ℤ
deriving DecidableEq, Repr

/-- The range asserts of `MidiNote.__post_init__` as a boolean check. -/
def midiNoteOk (pitch : ℤ) (bend : Option ℤ) (velocity : ℤ) : Bool :=
  decide (0 ≤ pitch) && decide (pitch ≤ 127)
    && (match bend with
        | none => true
        | some b => decide (0 ≤ b) && decide (b ≤ 2 ^ 14 - 1))
    && decide (0 ≤ velocity) && decide (velocity ≤ 127)

/-- Source `MidiNote(...)`: `none` when `__post_init__` raises. -/
def mkMidiNote (pitch : ℤ) (bend : Option ℤ) (ticks : ℤ) (velocity : ℤ) :
    Option MidiNote :=
  if midiNoteOk pitch bend velocity then some ⟨pitch, bend, ticks, velocity⟩
  else none

/-- Source `Note.to_midi(f0, pitch_bend_range)`.  The tick count is
`duration * DIVISION`, asserted to be an exact integer.  A rest maps to
pitch 0, centre bend and velocity 0; a sounding note to
`60 + round(semitones)` with the fractional remainder scaled into the
14-bit bend range. -/
noncomputable def Note.to_midi (f0 : ℝ) (pitch_bend_range : ℤ) (n : Note) :
    Option MidiNote :=
  open Classical in
  let duration := n.duration.evaluate
  let ticksQ : ℚ := duration * (DIVISION : ℚ)
  if ticksQ.den ≠ 1 then none
  else
    let ticks : ℤ := ticksQ.num
    let real_frequency : ℝ := n.frequency.evaluate * f0
    if real_frequency = 0 then mkMidiNote 0 (some PITCH_BEND_CENTER) ticks 0
    else
      let exact_semitones : ℝ :=
        12 * Real.logb 2 (real_frequency / MIDDLE_C_FREQUENCY)
      let integer_semitones : ℤ := round exact_semitones
      let remainder : ℝ := exact_semitones - integer_semitones
      let pitch : ℤ := 60 + integer_semitones
      let bend : ℤ :=
        round ((PITCH_BEND_CENTER : ℝ)
          + remainder * ((PITCH_BEND_MAX : ℝ) - (PITCH_BEND_CENTER : ℝ))
            / (pitch_bend_range : ℝ))
      let velocity : ℤ := min (round (n.volume.evaluate * 64)) 127
      mkMidiNote pitch (some bend) ticks velocity

/-- The payload of one midi channel event emitted by the backend. -/
inductive EventData where
  | pitchBend : ℕ → ℤ → EventData
  | noteOn : ℕ → ℤ → ℤ → EventData
  | noteOff : ℕ → ℤ → EventData
  | programChange : ℕ → ℤ → EventData
deriving DecidableEq, Repr

/-- One midi track event: a delta time (written as a variable length
quantity in the hex stream) followed by its payload. -/
structure MidiEvent where
  delta : ℤ
  data : EventData
deriving DecidableEq, Repr

/-- Source `chord_to_midi(notes, f0=f0, channels=channels, pitch_bend_range=...)`
at the level of events rather than hex text: convert every note, assert a
single tick value, enough channels and a bend on every note, then emit all
pitch bends, then all note-ons, then all note-offs; only the note-off on
the first channel carries the tick delta, the others carry 0. -/
noncomputable def chord_to_midi (f0 : ℝ) (pitch_bend_range : ℤ)
    (notes : List Note) (channels : List ℕ) : Option (List MidiEvent) :=
  match optList (Note.to_midi f0 pitch_bend_range) notes with
  | none => none
  | some ms =>
    match ms, channels with
    | [], _ => none
    | _ :: _, [] => none
    | m0 :: rest, c0 :: _ =>
      if ¬ (rest.all fun m => m.ticks = m0.ticks) then none
      else if ¬ ((m0 :: rest).length ≤ channels.length) then none
      else if ¬ ((m0 :: rest).all fun m => m.bend.isSome) then none
      else
        let pairs := (m0 :: rest).zip channels
        some ((pairs.map fun p => MidiEvent.mk 0 (.pitchBend p.2 (p.1.bend.getD 0)))
          ++ (pairs.map fun p => MidiEvent.mk 0 (.noteOn p.2 p.1.pitch p.1.velocity))
          ++ (pairs.map fun p =>
                MidiEvent.mk (if p.2 = c0 then m0.ticks else 0)
                  (.noteOff p.2 p.1.pitch)))

/-- The notes of the chord handed to `chord_to_midi`: a lone note is a one
note chord, a tuple must contain notes only; handing a list crashes
(`none`). -/
def asChord : Music → Option (List Note)
  | .note n => some [n]
  | .tup ms =>
      optList (fun m => match m with
        | .note n => some n
        | _ => none) ms
  | .lst _ => none

/-- The midi channels available to parts: 0 is kept for an MPE master
channel and 9 for percussion. -/
def all_channels : List ℕ :=
  (List.range 16).filter fun i => decide (i ≠ 0) && decide (i ≠ 9)

/-- Source `set_program(program, channels)`: one program change per channel. -/
def set_program (program : ℤ) (channels : List ℕ) : List MidiEvent :=
  channels.map fun c => MidiEvent.mk 0 (.programChange c (program - 1))

/-- Source `midi_track(music, ...)` at event level: the program changes followed
by the chord events of every element of the part in order.  Iterating a
`Note` raises (`none`). -/
noncomputable def midi_track (f0 : ℝ) (pitch_bend_range : ℤ)
    (channels : List ℕ) (program : Option ℤ) (music : Music) :
    Option (List MidiEvent) :=
  let body := fun (ms : List Music) =>
    match optList (fun x =>
        match asChord x with
        | none => none
        | some notes => chord_to_midi f0 pitch_bend_range notes channels) ms with
    | none => none
    | some evss =>
      some ((match program with
             | none => []
             | some p => set_program p channels) ++ evss.flatten)
  match music with
  | .note _ => none
  | .tup ms => body ms
  | .lst ms => body ms

/-- Source `programs[n] if n < len(programs) else programs[-1]`; the outer option
is the crash on indexing an empty list. -/
def programFor (programs : Option (List (Option ℤ))) (n : ℕ) :
    Option (Option ℤ) :=
  match programs with
  | none => some none
  | some ps =>
    if h : n < ps.length then some ps[n]
    else
      match ps.getLast? with
      | some p => some p
      | none => none

/-- The loop of `part_midi_tracks`: track each part in turn, consuming
`height(part)` channels starting at `lowest_index`; assert
`lowest_index <= len(all_channels) - 1` before slicing. -/
noncomputable def part_tracks_from (f0 : ℝ) (pitch_bend_range : ℤ)
    (programs : Option (List (Option ℤ))) :
    List Music → ℕ → ℕ → Option (List (List MidiEvent) × List (List ℕ))
  | [], _, _ => some ([], [])
  | part :: parts, n, lowest_index =>
    match programFor programs n with
    | none => none
    | some program =>
      let n_channels := height part
      if lowest_index ≤ all_channels.length - 1 then
        let channels := (all_channels.drop lowest_index).take n_channels
        match midi_track f0 pitch_bend_range channels program part with
        | none => none
        | some track =>
          match part_tracks_from f0 pitch_bend_range programs parts (n + 1)
              (lowest_index + n_channels) with
          | none => none
          | some rest => some (track :: rest.1, channels :: rest.2)
      else none

/-- Source `part_midi_tracks(music, f0, programs, pitch_bend_range)`: the track
events and the channels used for each part. -/
noncomputable def part_midi_tracks (f0 : ℝ) (pitch_bend_range : ℤ)
    (programs : Option (List (Option ℤ))) (parts : List Music) :
    Option (List (List MidiEvent) × List (List ℕ)) :=
  part_tracks_from f0 pitch_bend_range programs parts 0 0

/-- The channel lists that consecutive consumption hands to parts of the
given heights, starting at a given index into `all_channels`. -/
def allocatedChannels : List ℕ → ℕ → List (List ℕ)
  | [], _ => []
  | h :: hs, idx => ((all_channels.drop idx).take h) :: allocatedChannels hs (idx + h)

theorem optList_cons {α β : Type} (f : α → Option β) (x : α) (xs : List α) :
    optList f (x :: xs) =
      match f x with
      | none => none
      | some y =>
        match optList f xs with
        | none => none
        | some ys => some (y :: ys) := rfl

theorem optList_mem_some {α β : Type} (f : α → Option β) :
    ∀ (xs : List α) (ys : List β), optList f xs = some ys →
      ∀ x ∈ xs, ∃ y, f x = some y := by
  intro xs
  induction xs with
  | nil => intro ys _ x hx; cases hx
  | cons a as ih =>
    intro ys h x hx
    rw [optList_cons] at h
    cases ha : f a with
    | none => rw [ha] at h; cases h
    | some y =>
      rw [ha] at h
      cases has : optList f as with
      | none => rw [has] at h; cases h
      | some bs =>
        rw [has] at h
        cases hx with
        | head => exact ⟨y, ha⟩
        | tail _ hmem => exact ih bs has x hmem

theorem optList_none_of_mem {α β : Type} (f : α → Option β) :
    ∀ (xs : List α) (x : α), x ∈ xs → f x = none → optList f xs = none := by
  intro xs
  induction xs with
  | nil => intro x hx; cases hx
  | cons a as ih =>
    intro x hx hfx
    rw [optList_cons]
    cases hx with
    | head => rw [hfx]
    | tail _ hmem =>
      cases ha : f a with
      | none => rfl
      | some y => rw [ih x hmem hfx]

theorem optList_length {α β : Type} (f : α → Option β) :
    ∀ (xs : List α) (ys : List β), optList f xs = some ys →
      ys.length = xs.length := by
  intro xs
  induction xs with
  | nil => intro ys h; cases h; rfl
  | cons a as ih =>
    intro ys h
    rw [optList_cons] at h
    cases ha : f a with
    | none => rw [ha] at h; cases h
    | some y =>
      rw [ha] at h
      cases has : optList f as with
      | none => rw [has] at h; cases h
      | some bs =>
        rw [has] at h
        cases h
        simp [ih bs has]

theorem vlqChunks_ne_nil (n : ℕ) : vlqChunks n ≠ [] := by
  rw [vlqChunks]
  split
  · simp
  · simp

theorem vlqChunks_lt (n : ℕ) : ∀ b ∈ vlqChunks n, b < 128 := by
  induction n using Nat.strong_induction_on with
  | _ n ih =>
    rw [vlqChunks]
    split
    · intro b hb
      simp only [List.mem_singleton] at hb
      omega
    · intro b hb
      rcases List.mem_append.mp hb with h | h
      · exact ih (n / 128) (Nat.div_lt_self (by omega) (by omega)) b h
      · simp only [List.mem_singleton] at h
        omega

theorem markBytes_nil : markBytes [] = [] := rfl

theorem markBytes_one (b : ℕ) : markBytes [b] = [b] := rfl

theorem markBytes_cons_cons (b c : ℕ) (cs : List ℕ) :
    markBytes (b :: c :: cs) = (b + 128) :: markBytes (c :: cs) := rfl

theorem vlqChunks_foldl (n : ℕ) :
    ∀ a : ℕ, (vlqChunks n).foldl (fun acc b => 128 * acc + b % 128) a
      = a * 128 ^ (vlqChunks n).length + n := by
  induction n using Nat.strong_induction_on with
  | _ n ih =>
    intro a
    rw [vlqChunks]
    split
    · next h => simp [Nat.mod_eq_of_lt h, Nat.mul_comm]
    · next h =>
      rw [List.foldl_append, ih (n / 128) (Nat.div_lt_self (by omega) (by omega)) a]
      simp only [List.foldl_cons, List.foldl_nil, List.length_append,
        List.length_singleton]
      rw [Nat.pow_succ, ← Nat.mul_assoc]
      generalize a * 128 ^ (vlqChunks (n / 128)).length = X
      omega

theorem markBytes_foldl :
    ∀ (l : List ℕ) (a : ℕ),
      (markBytes l).foldl (fun acc b => 128 * acc + b % 128) a
        = l.foldl (fun acc b => 128 * acc + b % 128) a := by
  intro l
  induction l with
  | nil => intro a; rfl
  | cons b bs ih =>
    intro a
    match bs, ih with
    | [], _ => rfl
    | c :: cs, ih =>
      rw [markBytes_cons_cons]
      simp only [List.foldl_cons]
      rw [ih]
      have hb : 128 * a + (b + 128) % 128 = 128 * a + b % 128 := by omega
      rw [hb, List.foldl_cons]

theorem vlq_roundtrip (n : ℕ) : vlqDecode (variable_length_quantity n) = n := by
  rw [vlqDecode, variable_length_quantity, markBytes_foldl, vlqChunks_foldl]
  simp

theorem markBytes_length (l : List ℕ) : (markBytes l).length = l.length := by
  induction l with
  | nil => rfl
  | cons b bs ih =>
    match bs, ih with
    | [], _ => rfl
    | c :: cs, ih =>
      rw [markBytes_cons_cons]
      simpa using ih

theorem markBytes_getLast (l : List ℕ) :
    ∀ d : ℕ, (markBytes l).getLastD d = l.getLastD d := by
  induction l with
  | nil => intro d; rfl
  | cons b bs ih =>
    intro d
    match bs, ih with
    | [], _ => rfl
    | c :: cs, ih =>
      rw [markBytes_cons_cons]
      simp only [List.getLastD_cons]
      rw [ih]
      simp only [List.getLastD_cons]

theorem vlqChunks_getLast_lt (n : ℕ) : (vlqChunks n).getLastD 0 < 128 := by
  have h := vlqChunks_lt n
  rcases List.eq_nil_or_concat (vlqChunks n) with he | ⟨l, b, he⟩
  · exact absurd he (vlqChunks_ne_nil n)
  · rw [he]
    have : b ∈ vlqChunks n := by rw [he]; simp
    simpa [List.getLastD_concat] using h b this

theorem markBytes_dropLast (l : List ℕ) (hl : ∀ b ∈ l, b < 128) :
    ((markBytes l).dropLast.all fun b => decide (128 ≤ b) && decide (b < 256))
      = true := by
  induction l with
  | nil => rfl
  | cons b bs ih =>
    match bs, ih with
    | [], _ => rfl
    | c :: cs, ih =>
      rw [markBytes_cons_cons]
      have hb : b < 128 := hl b (by simp)
      have hrest : ∀ x ∈ c :: cs, x < 128 := fun x hx => hl x (by simp [hx])
      have hne : markBytes (c :: cs) ≠ [] := by
        have := markBytes_length (c :: cs)
        intro hcon
        rw [hcon] at this
        simp at this
      rw [List.dropLast_cons_of_ne_nil hne]
      simp only [List.all_cons, Bool.and_eq_true, decide_eq_true_eq]
      exact ⟨⟨by omega, by omega⟩, ih hrest⟩

theorem temper_note_rest (e : ℤ) (n : Note) (h : n.frequency.evaluate = 0) :
    temper_note e n = n := by
  rw [temper_note, if_pos h]

/-- Source `round(e * log2 x) = k` as soon as `2 ^ (2k-1) ≤ x ^ (2e) < 2 ^ (2k+1)`:
the rational-inequality form used to settle concrete tempering steps. -/
theorem round_mul_logb (e k : ℤ) (x : ℝ) (hx : 0 < x)
    (h1 : (2 : ℝ) ^ (2 * k - 1) ≤ x ^ (2 * e))
    (h2 : x ^ (2 * e) < (2 : ℝ) ^ (2 * k + 1)) :
    round ((e : ℝ) * Real.logb 2 x) = k := by
  have hl2 : 0 < Real.log 2 := Real.log_pos one_lt_two
  have hx2e : (0 : ℝ) < x ^ (2 * e) := zpow_pos hx _
  have ha := Real.log_le_log (zpow_pos (by norm_num) _) h1
  have hb := Real.log_lt_log hx2e h2
  rw [Real.log_zpow, Real.log_zpow] at ha
  rw [Real.log_zpow, Real.log_zpow] at hb
  push_cast at ha hb
  rw [round_eq, Int.floor_eq_iff]
  rw [Real.logb]
  constructor
  · have hdiv : ((k : ℝ) - 1 / 2) ≤ (e : ℝ) * Real.log x / Real.log 2 := by
      rw [le_div_iff₀ hl2]
      nlinarith
    rw [mul_div_assoc] at hdiv
    linarith
  · have hdiv : (e : ℝ) * Real.log x / Real.log 2 < (k : ℝ) + 1 / 2 := by
      rw [div_lt_iff₀ hl2]
      nlinarith
    rw [mul_div_assoc] at hdiv
    linarith

theorem temper_note_power (e k : ℤ) (he : 0 < e) (d v : Quantity) :
    temper_note e (Note.mk (.power 2 k e) d v) = Note.mk (.power 2 k e) d v := by
  have hpos : (0 : ℝ) < Freq.evaluate (.power 2 k e) :=
    Real.rpow_pos_of_pos (by norm_num) _
  have he' : (e : ℝ) ≠ 0 := by
    exact_mod_cast (ne_of_gt (by exact_mod_cast he : (0 : ℝ) < (e : ℝ)))
  rw [temper_note, if_neg (ne_of_gt hpos)]
  have hlog : Real.logb 2 (Freq.evaluate (.power 2 k e)) = (k : ℝ) / (e : ℝ) := by
    show Real.logb 2 ((2 : ℝ) ^ ((k : ℝ) / (e : ℝ))) = (k : ℝ) / (e : ℝ)
    exact Real.logb_rpow (by norm_num) (by norm_num)
  show Note.mk (Freq.power 2
      (round ((e : ℝ) * Real.logb 2 (Freq.evaluate (.power 2 k e)))) e) d v = _
  rw [hlog, mul_comm, div_mul_cancel₀ _ he', round_intCast]

/-- Tempering a note yields the note itself (a rest) or a note of the same
duration and volume whose frequency is `Power(2, k, edo)` for some `k`. -/
theorem temper_note_shape (e : ℤ) (n : Note) :
    temper_note e n = n ∨
      ∃ k, temper_note e n = Note.mk (.power 2 k e) n.duration n.volume := by
  obtain ⟨f, d, v⟩ := n
  by_cases h : Freq.evaluate f = 0
  · exact Or.inl (temper_note_rest e _ h)
  · right
    cases f with
    | ratioProduct rs => exact ⟨_, by rw [temper_note, if_neg h]⟩
    | frac q => exact ⟨_, by rw [temper_note, if_neg h]⟩
    | power b m nn => exact ⟨_, by rw [temper_note, if_neg h]⟩

theorem temper_note_idem (e : ℤ) (he : 0 < e) (n : Note) :
    temper_note e (temper_note e n) = temper_note e n := by
  rcases temper_note_shape e n with h | ⟨k, h⟩
  · rw [h, h]
  · rw [h, temper_note_power e k he]

mutual
theorem apply_to_notes_idem (f : Note → Note) (hf : ∀ n, f (f n) = f n) :
    ∀ m : Music, apply_to_notes f (apply_to_notes f m) = apply_to_notes f m
  | .note n => by
      simp only [apply_to_notes]
      rw [hf]
  | .tup ms => by
      simp only [apply_to_notes]
      rw [applyList_idem f hf ms]
  | .lst ms => by
      simp only [apply_to_notes]
      rw [applyList_idem f hf ms]

theorem applyList_idem (f : Note → Note) (hf : ∀ n, f (f n) = f n) :
    ∀ ms : List Music, applyList f (applyList f ms) = applyList f ms
  | [] => rfl
  | m :: ms => by
      simp only [applyList]
      rw [apply_to_notes_idem f hf m, applyList_idem f hf ms]
end

/-- Claim C1: tempering is idempotent.  For every `Music` value and every
positive `edo`, `temper(temper(m, edo), edo)` is structurally equal to
`temper(m, edo)`; in particular re-tempering an already tempered note at
the same `edo` returns it unchanged. -/
theorem temper_idempotent (m : Music) (e : ℤ) (he : 0 < e) :
    temper (temper m (some e)) (some e) = temper m (some e) := by
  simp only [temper]
  exact apply_to_notes_idem (temper_note e) (temper_note_idem e he) m

theorem temper_idempotent_witness :
    (0 : ℤ) < 12 ∧
      temper (temper (.note (Note.mk (.ratioProduct [6 / 5]) (.frac 1) (.frac 1)))
          (some 12)) (some 12)
        = temper (.note (Note.mk (.ratioProduct [6 / 5]) (.frac 1) (.frac 1)))
            (some 12) :=
  ⟨by norm_num, temper_idempotent _ 12 (by norm_num)⟩

theorem temper_minor_third_12 :
    round ((12 : ℝ) * Real.logb 2 (6 / 5 : ℝ)) = 3 := by
  apply round_mul_logb 12 3 _ (by norm_num)
  · show (2 : ℝ) ^ (5 : ℤ) ≤ (6 / 5 : ℝ) ^ (24 : ℤ)
    rw [show ((5 : ℤ)) = ((5 : ℕ) : ℤ) by norm_num,
      show ((24 : ℤ)) = ((24 : ℕ) : ℤ) by norm_num, zpow_natCast, zpow_natCast]
    norm_num
  · show (6 / 5 : ℝ) ^ (24 : ℤ) < (2 : ℝ) ^ (7 : ℤ)
    rw [show ((7 : ℤ)) = ((7 : ℕ) : ℤ) by norm_num,
      show ((24 : ℤ)) = ((24 : ℕ) : ℤ) by norm_num, zpow_natCast, zpow_natCast]
    norm_num

theorem temper_minor_third_19 :
    round ((19 : ℝ) * Real.logb 2 (6 / 5 : ℝ)) = 5 := by
  apply round_mul_logb 19 5 _ (by norm_num)
  · show (2 : ℝ) ^ (9 : ℤ) ≤ (6 / 5 : ℝ) ^ (38 : ℤ)
    rw [show ((9 : ℤ)) = ((9 : ℕ) : ℤ) by norm_num,
      show ((38 : ℤ)) = ((38 : ℕ) : ℤ) by norm_num, zpow_natCast, zpow_natCast]
    norm_num
  · show (6 / 5 : ℝ) ^ (38 : ℤ) < (2 : ℝ) ^ (11 : ℤ)
    rw [show ((11 : ℤ)) = ((11 : ℕ) : ℤ) by norm_num,
      show ((38 : ℤ)) = ((38 : ℕ) : ℤ) by norm_num, zpow_natCast, zpow_natCast]
    norm_num

/-- Claim C2: tempering a sounding note whose frequency is a ratio product
sums the independently rounded per-factor steps, keeping duration and
volume; in particular 6/5 tempers to `Power(2, 3, 12)` at 12 edo and to
`Power(2, 5, 19)` at 19 edo. -/
theorem temper_note_ratioProduct :
    (∀ (rs : List ℚ) (d v : Quantity) (e : ℤ),
        Freq.evaluate (.ratioProduct rs) ≠ 0 →
        temper_note e (Note.mk (.ratioProduct rs) d v)
          = Note.mk
              (.power 2 ((rs.map fun x =>
                  round ((e : ℝ) * Real.logb 2 (x : ℝ))).sum) e)
              d v)
    ∧ temper_note 12 (Note.mk (.ratioProduct [6 / 5]) (.frac 1) (.frac 1))
        = Note.mk (.power 2 3 12) (.frac 1) (.frac 1)
    ∧ temper_note 19 (Note.mk (.ratioProduct [6 / 5]) (.frac 1) (.frac 1))
        = Note.mk (.power 2 5 19) (.frac 1) (.frac 1) := by
  have hgen : ∀ (rs : List ℚ) (d v : Quantity) (e : ℤ),
      Freq.evaluate (.ratioProduct rs) ≠ 0 →
      temper_note e (Note.mk (.ratioProduct rs) d v)
        = Note.mk
            (.power 2 ((rs.map fun x =>
                round ((e : ℝ) * Real.logb 2 (x : ℝ))).sum) e)
            d v := by
    intro rs d v e h
    rw [temper_note, if_neg h]
  refine ⟨hgen, ?_, ?_⟩
  · rw [hgen _ _ _ 12 (by norm_num [Freq.evaluate])]
    simp [temper_minor_third_12]
  · rw [hgen _ _ _ 19 (by norm_num [Freq.evaluate])]
    simp [temper_minor_third_19]

/-- Claim C9: `temper(music, edo=None)` returns the music unchanged. -/
theorem temper_none_identity (m : Music) : temper m none = m := rfl

mutual
theorem mult_expr_tempered (rs : List ℚ) :
    ∀ m : Music, hasTempered m = true → mult_expr rs m = none
  | .note n, h => by
      cases hf : n.frequency with
      | ratioProduct rs2 => rw [hasTempered, hf] at h; cases h
      | frac q => rw [hasTempered, hf] at h; cases h
      | power b mm k => rw [mult_expr, hf]; rfl
  | .tup ms, h => by
      rw [hasTempered] at h
      rw [mult_expr, multList_tempered rs ms h]
  | .lst ms, h => by
      rw [hasTempered] at h
      rw [mult_expr, multList_tempered rs ms h]

theorem multList_tempered (rs : List ℚ) :
    ∀ ms : List Music, temperedList ms = true → multList rs ms = none
  | m :: ms, h => by
      rw [temperedList, Bool.or_eq_true] at h
      rw [multList]
      rcases h with h | h
      · rw [mult_expr_tempered rs m h]
      · cases hm : mult_expr rs m with
        | none => rfl
        | some m2 => rw [multList_tempered rs ms h]
end

/-- Claim C10: applying the frequency-multiply operation to music holding
any already-tempered note (a `Power` frequency) raises instead of
returning music: the `RatioProduct` constructor rejects a `Power`
operand, so `mult_expr` is only possible before tempering. -/
theorem mult_expr_tempered_raises (rs : List ℚ) (m : Music)
    (h : hasTempered m = true) : mult_expr rs m = none :=
  mult_expr_tempered rs m h

theorem mult_expr_tempered_raises_witness :
    hasTempered (.note (Note.mk (.power 2 3 12) (.frac 1) (.frac 1))) = true
      ∧ mult_expr [2]
          (.note (Note.mk (.power 2 3 12) (.frac 1) (.frac 1))) = none :=
  ⟨by decide, mult_expr_tempered_raises [2] _ (by decide)⟩

theorem durSum_eq (ms : List Music) :
    durSum ms = (ms.map total_duration).sum := by
  induction ms with
  | nil => rfl
  | cons m ms ih => rw [durSum, ih, List.map_cons, List.sum_cons]

theorem durMax_cons_cons (m m2 : Music) (ms : List Music) :
    durMax (m :: m2 :: ms) = max (total_duration m) (durMax (m2 :: ms)) := by
  rw [durMax]
  simp

theorem durMax_mem (ms : List Music) (h : ms ≠ []) :
    durMax ms ∈ ms.map total_duration := by
  induction ms with
  | nil => exact absurd rfl h
  | cons m ms ih =>
    cases ms with
    | nil => simp [durMax]
    | cons m2 ms2 =>
      rw [durMax_cons_cons]
      rcases max_cases (total_duration m) (durMax (m2 :: ms2)) with ⟨he, _⟩ | ⟨he, _⟩
      · rw [he]; simp
      · rw [he]
        simp only [List.map_cons, List.mem_cons]
        right
        simpa using ih (by simp)

theorem le_durMax (ms : List Music) (m : Music) (hm : m ∈ ms) :
    total_duration m ≤ durMax ms := by
  induction ms with
  | nil => cases hm
  | cons a as ih =>
    cases as with
    | nil =>
      rcases List.mem_singleton.mp hm with rfl
      simp [durMax]
    | cons a2 as2 =>
      rw [durMax_cons_cons]
      rcases List.mem_cons.mp hm with rfl | hm2
      · exact le_max_left _ _
      · exact le_trans (ih hm2) (le_max_right _ _)

/-- Claim C7: `total_duration` is the evaluated duration of a note, the sum
over a `Part` (list), the maximum over a `Chord`/`Piece` (tuple), and 0 on
an empty list or tuple. -/
theorem total_duration_spec :
    (∀ n : Note, total_duration (.note n) = n.duration.evaluate)
    ∧ (∀ ms : List Music,
        total_duration (.lst ms) = (ms.map total_duration).sum)
    ∧ total_duration (.tup []) = 0
    ∧ total_duration (.lst []) = 0
    ∧ (∀ ms : List Music, ms ≠ [] →
        total_duration (.tup ms) ∈ ms.map total_duration
          ∧ ∀ m ∈ ms, total_duration m ≤ total_duration (.tup ms)) := by
  refine ⟨fun n => rfl, fun ms => ?_, rfl, rfl, fun ms h => ?_⟩
  · rw [total_duration, durSum_eq]
  · rw [total_duration]
    exact ⟨durMax_mem ms h, fun m hm => le_durMax ms m hm⟩

theorem total_duration_spec_witness :
    ([Music.note (Note.mk (.frac 1) (.frac 1) (.frac 1)),
      Music.note (Note.mk (.frac (3 / 2)) (.frac 2) (.frac 1))] ≠ [])
    ∧ (total_duration (.tup [Music.note (Note.mk (.frac 1) (.frac 1) (.frac 1)),
          Music.note (Note.mk (.frac (3 / 2)) (.frac 2) (.frac 1))])
        ∈ [Music.note (Note.mk (.frac 1) (.frac 1) (.frac 1)),
           Music.note (Note.mk (.frac (3 / 2)) (.frac 2) (.frac 1))].map
            total_duration
        ∧ ∀ m ∈ [Music.note (Note.mk (.frac 1) (.frac 1) (.frac 1)),
            Music.note (Note.mk (.frac (3 / 2)) (.frac 2) (.frac 1))],
            total_duration m
              ≤ total_duration
                  (.tup [Music.note (Note.mk (.frac 1) (.frac 1) (.frac 1)),
                    Music.note (Note.mk (.frac (3 / 2)) (.frac 2) (.frac 1))])) :=
  ⟨by simp, total_duration_spec.2.2.2.2 _ (by simp)⟩

mutual
theorem zero_not_in_frequencies :
    ∀ m : Music, (0 : ℝ) ∉ frequencies_set m
  | .note n => by
      rw [frequencies_set]
      split
      · simp
      · next h => simp [h, Ne.symm h]
  | .tup ms => by
      rw [frequencies_set]
      exact zero_not_in_freqUnion ms
  | .lst ms => by
      rw [frequencies_set]
      exact zero_not_in_freqUnion ms

theorem zero_not_in_freqUnion :
    ∀ ms : List Music, (0 : ℝ) ∉ freqUnion ms
  | [] => by rw [freqUnion]; simp
  | m :: ms => by
      rw [freqUnion]
      simp only [Finset.mem_union]
      rintro (h | h)
      · exact zero_not_in_frequencies m h
      · exact zero_not_in_freqUnion ms h
end

theorem lowMin_cons_cons (m m2 : Music) (ms : List Music) :
    lowMin (m :: m2 :: ms) = min (lowest m) (lowMin (m2 :: ms)) := by
  rw [lowMin]
  simp

mutual
theorem lowest_of_rests :
    ∀ m : Music, onlyRests m → lowest m = ⊤
  | .note n, h => by
      rw [onlyRests] at h
      rw [lowest, if_pos h]
  | .tup ms, h => by
      rw [onlyRests] at h
      rw [lowest]
      split
      · rfl
      · exact lowMin_of_rests ms h
  | .lst ms, h => by
      rw [onlyRests] at h
      rw [lowest]
      split
      · rfl
      · exact lowMin_of_rests ms h

theorem lowMin_of_rests :
    ∀ ms : List Music, restsList ms → lowMin ms = ⊤
  | [], _ => by rw [lowMin]
  | [m], h => by
      rw [lowMin]
      exact lowest_of_rests m h.1
  | m :: m2 :: ms, h => by
      rw [lowMin_cons_cons, lowest_of_rests m h.1,
        lowMin_of_rests (m2 :: ms) h.2]
      simp
end

/-- Claim C8: rests contribute nothing to the frequency analyses.  Zero
never lies in `frequencies_set` or `all_frequencies`, and `lowest` of a
value that is empty or holds only rests is plus infinity. -/
theorem rest_frequencies_spec :
    (∀ m : Music, (0 : ℝ) ∉ frequencies_set m)
    ∧ (∀ m : Music, (0 : ℝ) ∉ all_frequencies m)
    ∧ (∀ m : Music, onlyRests m → lowest m = ⊤) := by
  refine ⟨zero_not_in_frequencies, fun m h => ?_, lowest_of_rests⟩
  rw [all_frequencies] at h
  exact zero_not_in_frequencies m (Finset.mem_sort (α := ℝ) (· ≤ ·) |>.mp h)

/-- Claim C5: `variable_length_quantity` writes the value bits in 7-bit
groups, most significant first, one group per byte with the top bit set on
every byte but the last, so the standard decoder recovers every `n`;
`0x3FFF` encodes to `FF 7F` and `0x4000` to `81 80 00`. -/
theorem variable_length_quantity_spec :
    (∀ n : ℕ, vlqDecode (variable_length_quantity n) = n)
    ∧ (∀ n : ℕ,
        0 < (variable_length_quantity n).length
          ∧ (variable_length_quantity n).getLastD 0 < 128
          ∧ ((variable_length_quantity n).dropLast.all
              fun b => decide (128 ≤ b) && decide (b < 256)) = true)
    ∧ variable_length_quantity 0x3FFF = [0xFF, 0x7F]
    ∧ variable_length_quantity 0x4000 = [0x81, 0x80, 0x00] := by
  refine ⟨vlq_roundtrip, fun n => ⟨?_, ?_, ?_⟩, ?_, ?_⟩
  · rw [variable_length_quantity, markBytes_length]
    cases h : vlqChunks n with
    | nil => exact absurd h (vlqChunks_ne_nil n)
    | cons a l => simp
  · rw [variable_length_quantity, markBytes_getLast]
    exact vlqChunks_getLast_lt n
  · exact markBytes_dropLast _ (vlqChunks_lt n)
  · rw [variable_length_quantity, vlqChunks]
    norm_num
    rw [vlqChunks]
    norm_num [markBytes_cons_cons, markBytes_one]
  · rw [variable_length_quantity, vlqChunks]
    norm_num
    rw [vlqChunks]
    norm_num
    rw [vlqChunks]
    norm_num [markBytes_cons_cons, markBytes_one]

theorem mkMidiNote_ticks (p : ℤ) (b : Option ℤ) (tk v : ℤ) (m : MidiNote)
    (h : mkMidiNote p b tk v = some m) : m.ticks = tk := by
  rw [mkMidiNote] at h
  split at h
  · cases h; rfl
  · cases h

theorem to_midi_none_of_den (f0 : ℝ) (pbr : ℤ) (n : Note)
    (h : (n.duration.evaluate * (DIVISION : ℚ)).den ≠ 1) :
    Note.to_midi f0 pbr n = none := by
  simp only [Note.to_midi]
  rw [if_pos h]

theorem to_midi_ticks (f0 : ℝ) (pbr : ℤ) (n : Note) (m : MidiNote)
    (h : Note.to_midi f0 pbr n = some m) :
    (m.ticks : ℚ) = n.duration.evaluate * (DIVISION : ℚ) := by
  simp only [Note.to_midi] at h
  by_cases hden : (n.duration.evaluate * (DIVISION : ℚ)).den ≠ 1
  · rw [if_pos hden] at h
    cases h
  · rw [if_neg hden] at h
    push_neg at hden
    have hticks : m.ticks = (n.duration.evaluate * (DIVISION : ℚ)).num := by
      split at h
      · exact mkMidiNote_ticks _ _ _ _ _ h
      · exact mkMidiNote_ticks _ _ _ _ _ h
    rw [hticks]
    have h2 := Rat.num_div_den (n.duration.evaluate * (DIVISION : ℚ))
    rw [hden] at h2
    simpa using h2

theorem map_noteOff_deltas (l : List (MidiNote × ℕ)) (c0 : ℕ) (t : ℤ)
    (h : ∀ p ∈ l, p.2 ≠ c0) :
    ((l.map fun p => MidiEvent.mk (if p.2 = c0 then t else 0)
        (.noteOff p.2 p.1.pitch)).map MidiEvent.delta)
      = List.replicate l.length 0 := by
  induction l with
  | nil => rfl
  | cons p ps ih =>
    simp only [List.map_cons, List.length_cons, List.replicate_succ]
    rw [if_neg (h p (by simp))]
    exact congrArg _ (ih fun q hq => h q (by simp [hq]))

/-- Claim C4: per chord, the pitch-bend strategy emits all pitch-bend
events, then all note-on events, then all note-off events; a non-integral
tick count (`duration * DIVISION`) aborts the encode, the tick count of an
encoded note is exactly `duration * DIVISION`, and of the note-offs
exactly the first carries the tick delta while the others carry zero. -/
theorem chord_to_midi_spec :
    (∀ (f0 : ℝ) (pbr : ℤ) (notes : List Note) (channels : List ℕ) (n : Note),
        n ∈ notes → (n.duration.evaluate * (DIVISION : ℚ)).den ≠ 1 →
        chord_to_midi f0 pbr notes channels = none)
    ∧ (∀ (f0 : ℝ) (pbr : ℤ) (n : Note) (m : MidiNote),
        Note.to_midi f0 pbr n = some m →
        (m.ticks : ℚ) = n.duration.evaluate * (DIVISION : ℚ))
    ∧ (∀ (f0 : ℝ) (pbr : ℤ) (notes : List Note) (channels : List ℕ)
        (evs : List MidiEvent),
        channels.Nodup →
        chord_to_midi f0 pbr notes channels = some evs →
        ∃ (ms : List MidiNote) (t : ℤ) (offs : List MidiEvent),
          optList (Note.to_midi f0 pbr) notes = some ms
          ∧ ms.length = notes.length
          ∧ (∀ m ∈ ms, m.ticks = t)
          ∧ evs = ((ms.zip channels).map fun p =>
                MidiEvent.mk 0 (.pitchBend p.2 (p.1.bend.getD 0)))
              ++ ((ms.zip channels).map fun p =>
                MidiEvent.mk 0 (.noteOn p.2 p.1.pitch p.1.velocity))
              ++ offs
          ∧ offs.map MidiEvent.data
              = ((ms.zip channels).map fun p => EventData.noteOff p.2 p.1.pitch)
          ∧ offs.map MidiEvent.delta
              = t :: List.replicate (ms.length - 1) 0) := by
  refine ⟨?_, to_midi_ticks, ?_⟩
  · intro f0 pbr notes channels n hn hden
    rw [chord_to_midi,
      optList_none_of_mem _ notes n hn (to_midi_none_of_den f0 pbr n hden)]
  · intro f0 pbr notes channels evs hnodup h
    rw [chord_to_midi] at h
    cases hopt : optList (Note.to_midi f0 pbr) notes with
    | none => rw [hopt] at h; cases h
    | some ms =>
      rw [hopt] at h
      cases ms with
      | nil =>
        cases channels with
        | nil => simp at h
        | cons c0 crest => simp at h
      | cons m0 rest =>
        cases channels with
        | nil => simp at h
        | cons c0 crest =>
          simp only [] at h
          by_cases g1 : (rest.all fun m => m.ticks = m0.ticks) = true
          case neg => rw [if_pos g1] at h; cases h
          rw [if_neg (not_not_intro g1)] at h
          by_cases g2 : (m0 :: rest).length ≤ (c0 :: crest).length
          case neg => rw [if_pos g2] at h; cases h
          rw [if_neg (not_not_intro g2)] at h
          by_cases g3 : ((m0 :: rest).all fun m => m.bend.isSome) = true
          case neg => rw [if_pos g3] at h; cases h
          rw [if_neg (not_not_intro g3)] at h
          have hevs := (Option.some_injective _ h.symm).symm
          obtain ⟨hc0, _⟩ := List.nodup_cons.mp hnodup
          refine ⟨m0 :: rest, m0.ticks,
            ((m0 :: rest).zip (c0 :: crest)).map fun p =>
              MidiEvent.mk (if p.2 = c0 then m0.ticks else 0)
                (.noteOff p.2 p.1.pitch),
            rfl, optList_length _ _ _ hopt, ?_, hevs.symm, ?_, ?_⟩
          · intro m hm
            rcases List.mem_cons.mp hm with rfl | hm2
            · rfl
            · simpa using (List.all_eq_true.mp g1) m hm2
          · rw [List.map_map]
            rfl
          · rw [List.zip_cons_cons, List.map_cons, List.map_cons]
            simp only [if_pos rfl]
            have hlen : (rest.zip crest).length = rest.length := by
              rw [List.length_zip]
              simp only [List.length_cons] at g2
              omega
            have hz : ∀ p ∈ rest.zip crest, p.2 ≠ c0 := by
              intro p hp hpc
              exact hc0 (hpc ▸ (List.of_mem_zip hp).2)
            rw [map_noteOff_deltas _ c0 m0.ticks hz, hlen]
            simp

theorem all_channels_length : all_channels.length = 14 := by decide

theorem heightSum_all_notes (ms : List Music)
    (h : ∀ m ∈ ms, ∃ nn, m = Music.note nn) : heightSum ms = ms.length := by
  induction ms with
  | nil => rfl
  | cons m ms ih =>
    obtain ⟨nn, rfl⟩ := h m (List.mem_cons_self m ms)
    rw [heightSum, height, ih fun x hx => h x (by simp [hx]), List.length_cons]
    omega

theorem asChord_height (x : Music) (notes : List Note)
    (h : asChord x = some notes) : height x = notes.length := by
  cases x with
  | note n =>
    rw [asChord] at h
    cases h
    rfl
  | tup ms =>
    rw [asChord] at h
    have hlen := optList_length _ _ _ h
    have hmem := optList_mem_some _ _ _ h
    rw [height, heightSum_all_notes ms ?_, hlen]
    intro m hm
    obtain ⟨y, hy⟩ := hmem m hm
    cases m with
    | note nn => exact ⟨nn, rfl⟩
    | tup _ => cases hy
    | lst _ => cases hy
  | lst ms =>
    rw [asChord] at h
    cases h

theorem chord_to_midi_channels (f0 : ℝ) (pbr : ℤ) (notes : List Note)
    (channels : List ℕ) (evs : List MidiEvent)
    (h : chord_to_midi f0 pbr notes channels = some evs) :
    notes.length ≤ channels.length := by
  rw [chord_to_midi] at h
  cases hopt : optList (Note.to_midi f0 pbr) notes with
  | none => rw [hopt] at h; cases h
  | some ms =>
    rw [hopt] at h
    cases ms with
    | nil =>
      cases channels with
      | nil => simp at h
      | cons c0 crest => simp at h
    | cons m0 rest =>
      cases channels with
      | nil => simp at h
      | cons c0 crest =>
        simp only [] at h
        by_cases g1 : (rest.all fun m => m.ticks = m0.ticks) = true
        case neg => rw [if_pos g1] at h; cases h
        rw [if_neg (not_not_intro g1)] at h
        by_cases g2 : (m0 :: rest).length ≤ (c0 :: crest).length
        case neg => rw [if_pos g2] at h; cases h
        rw [optList_length _ _ _ hopt] at g2
        exact g2

theorem heightMax_le (ms : List Music) (c : ℕ)
    (h : ∀ m ∈ ms, height m ≤ c) : heightMax ms ≤ c := by
  induction ms with
  | nil => exact Nat.zero_le c
  | cons m ms ih =>
    rw [heightMax]
    exact max_le (h m (by simp)) (ih fun x hx => h x (by simp [hx]))

theorem midi_track_height_le (f0 : ℝ) (pbr : ℤ) (channels : List ℕ)
    (program : Option ℤ) (ms : List Music) (evs : List MidiEvent)
    (h : midi_track f0 pbr channels program (.lst ms) = some evs) :
    height (.lst ms) ≤ channels.length := by
  simp only [midi_track] at h
  cases hopt : optList (fun x =>
      match asChord x with
      | none => none
      | some notes => chord_to_midi f0 pbr notes channels) ms with
  | none => rw [hopt] at h; cases h
  | some evss =>
    have hmem := optList_mem_some _ _ _ hopt
    rw [height]
    refine heightMax_le ms channels.length fun x hx => ?_
    obtain ⟨y, hy⟩ := hmem x hx
    cases hA : asChord x with
    | none => rw [hA] at hy; cases hy
    | some notes =>
      rw [hA] at hy
      rw [asChord_height x notes hA]
      exact chord_to_midi_channels f0 pbr notes channels y hy

theorem part_tracks_from_alloc (f0 : ℝ) (pbr : ℤ)
    (programs : Option (List (Option ℤ))) :
    ∀ (parts : List Music) (n idx : ℕ)
      (r : List (List MidiEvent) × List (List ℕ)),
      part_tracks_from f0 pbr programs parts n idx = some r →
      r.2 = allocatedChannels (parts.map height) idx := by
  intro parts
  induction parts with
  | nil =>
    intro n idx r h
    rw [part_tracks_from] at h
    cases h
    rfl
  | cons part rest ih =>
    intro n idx r h
    rw [part_tracks_from] at h
    cases hprog : programFor programs n with
    | none => rw [hprog] at h; cases h
    | some program =>
      rw [hprog] at h
      simp only [] at h
      by_cases hidx : idx ≤ all_channels.length - 1
      case neg => rw [if_neg hidx] at h; cases h
      rw [if_pos hidx] at h
      cases htr : midi_track f0 pbr ((all_channels.drop idx).take (height part))
          program part with
      | none => rw [htr] at h; cases h
      | some track =>
        rw [htr] at h
        cases hrec : part_tracks_from f0 pbr programs rest (n + 1)
            (idx + height part) with
        | none => rw [hrec] at h; cases h
        | some r2 =>
          rw [hrec] at h
          cases h
          have := ih (n + 1) (idx + height part) r2 hrec
          rw [List.map_cons, allocatedChannels]
          simp only []
          rw [← this]

theorem part_tracks_from_le (f0 : ℝ) (pbr : ℤ)
    (programs : Option (List (Option ℤ))) :
    ∀ (parts : List Music) (n idx : ℕ)
      (r : List (List MidiEvent) × List (List ℕ)),
      (∀ p ∈ parts, ∃ ms, p = Music.lst ms) →
      part_tracks_from f0 pbr programs parts n idx = some r →
      parts = [] ∨ idx + (parts.map height).sum ≤ 14 := by
  intro parts
  induction parts with
  | nil => intro n idx r _ _; exact Or.inl rfl
  | cons part rest ih =>
    intro n idx r hshape h
    right
    rw [part_tracks_from] at h
    cases hprog : programFor programs n with
    | none => rw [hprog] at h; cases h
    | some program =>
      rw [hprog] at h
      simp only [] at h
      by_cases hidx : idx ≤ all_channels.length - 1
      case neg => rw [if_neg hidx] at h; cases h
      rw [if_pos hidx] at h
      rw [all_channels_length] at hidx
      cases htr : midi_track f0 pbr ((all_channels.drop idx).take (height part))
          program part with
      | none => rw [htr] at h; cases h
      | some track =>
        rw [htr] at h
        obtain ⟨ms, rfl⟩ := hshape part (List.mem_cons_self part rest)
        have hle := midi_track_height_le f0 pbr _ program ms track htr
        have hchan : ((all_channels.drop idx).take (height (Music.lst ms))).length
            = min (height (Music.lst ms)) (14 - idx) := by
          rw [List.length_take, List.length_drop, all_channels_length]
        rw [hchan] at hle
        have hbound : idx + height (Music.lst ms) ≤ 14 := by omega
        cases hrec : part_tracks_from f0 pbr programs rest (n + 1)
            (idx + height (Music.lst ms)) with
        | none => rw [hrec] at h; cases h
        | some r2 =>
          rcases ih (n + 1) (idx + height (Music.lst ms)) r2
              (fun p hp => hshape p (by simp [hp])) hrec with hnil | hsum
          · subst hnil
            simp only [List.map_cons, List.map_nil, List.sum_cons, List.sum_nil]
            omega
          · simp only [List.map_cons, List.sum_cons]
            omega

/-- Claim C6: channels 0 and 9 are excluded, parts consume channels
consecutively (each part takes `height(part)` channels starting where the
previous part stopped), and a piece whose parts together need more than
the 14 available channels always fails to encode. -/
theorem part_midi_tracks_channels_spec :
    (∀ (f0 : ℝ) (pbr : ℤ) (programs : Option (List (Option ℤ)))
        (parts : List Music) (r : List (List MidiEvent) × List (List ℕ)),
        part_midi_tracks f0 pbr programs parts = some r →
        r.2 = allocatedChannels (parts.map height) 0)
    ∧ (∀ (f0 : ℝ) (pbr : ℤ) (programs : Option (List (Option ℤ)))
        (parts : List Music),
        (∀ p ∈ parts, ∃ ms, p = Music.lst ms) →
        14 < (parts.map height).sum →
        part_midi_tracks f0 pbr programs parts = none)
    ∧ all_channels = [1, 2, 3, 4, 5, 6, 7, 8, 10, 11, 12, 13, 14, 15] := by
  refine ⟨?_, ?_, by decide⟩
  · intro f0 pbr programs parts r h
    exact part_tracks_from_alloc f0 pbr programs parts 0 0 r h
  · intro f0 pbr programs parts hshape hover
    cases hr : part_midi_tracks f0 pbr programs parts with
    | none => rfl
    | some r =>
      rcases part_tracks_from_le f0 pbr programs parts 0 0 r hshape hr
          with hnil | hsum
      · subst hnil
        simp at hover
      · omega

theorem factorize_spec : ∀ n : ℕ, n ≠ 0 →
    (factorize n).1 * (factorize n).2 = n
      ∧ (factorize n).2 % 2 = 1
      ∧ ∃ i, (factorize n).1 = 2 ^ i := by
  intro n
  induction n using Nat.strong_induction_on with
  | _ n ih =>
    intro hn
    rw [factorize]
    split
    · next h =>
      obtain ⟨hdvd, -⟩ := h
      have h2 : 2 ≤ n := Nat.le_of_dvd (Nat.pos_of_ne_zero hn) hdvd
      have hhalf : n / 2 ≠ 0 := by omega
      obtain ⟨hprod, hodd, i, hpow⟩ :=
        ih (n / 2) (Nat.div_lt_self (Nat.pos_of_ne_zero hn) (by omega)) hhalf
      refine ⟨?_, hodd, i + 1, ?_⟩
      · show 2 * (factorize (n / 2)).1 * (factorize (n / 2)).2 = n
        rw [mul_assoc, hprod]
        exact Nat.mul_div_cancel' hdvd
      · show 2 * (factorize (n / 2)).1 = 2 ^ (i + 1)
        rw [hpow, pow_succ, mul_comm]
    · next h =>
      push_neg at h
      have hd : ¬ 2 ∣ n := fun hdvd => hn (h hdvd)
      exact ⟨one_mul n, by omega, 0, rfl⟩

theorem factorize_one : factorize 1 = (1, 1) := by
  rw [factorize]
  norm_num

theorem factorize_two : factorize 2 = (2, 1) := by
  rw [factorize]
  rw [dif_pos ⟨by norm_num, by norm_num⟩]
  show (2 * (factorize (2 / 2)).1, (factorize (2 / 2)).2) = (2, 1)
  norm_num [factorize_one]

theorem duration_coeffs_sum : ∀ (ds : List ℚ) (t : ℚ),
    ((duration_coeffs t ds).1.map fun p => p.1 * (p.2 : ℚ)).sum
        + (duration_coeffs t ds).2 = t := by
  intro ds
  induction ds with
  | nil => intro t; simp [duration_coeffs]
  | cons d ds ih =>
    intro t
    simp only [duration_coeffs, List.map_cons, List.sum_cons]
    linarith [ih (t - d * ⌊t / d⌋)]

theorem duration_coeffs_props : ∀ (ds : List ℚ) (t : ℚ), 0 ≤ t →
    (∀ d ∈ ds, 0 < d) →
    0 ≤ (duration_coeffs t ds).2
      ∧ ∀ p ∈ (duration_coeffs t ds).1, 0 ≤ p.2 ∧ p.1 ∈ ds := by
  intro ds
  induction ds with
  | nil =>
    intro t ht _
    exact ⟨by simpa [duration_coeffs] using ht, by simp [duration_coeffs]⟩
  | cons d ds ih =>
    intro t ht hpos
    have hd : 0 < d := hpos d (by simp)
    have hc : (0 : ℤ) ≤ ⌊t / d⌋ := Int.floor_nonneg.mpr (div_nonneg ht hd.le)
    have ht' : 0 ≤ t - d * ⌊t / d⌋ := by
      have hfl : ((⌊t / d⌋ : ℤ) : ℚ) ≤ t / d := Int.floor_le _
      have hmul := mul_le_mul_of_nonneg_left hfl hd.le
      have hcan : d * (t / d) = t := mul_div_cancel₀ t hd.ne'
      linarith
    obtain ⟨hrem, hmem⟩ :=
      ih (t - d * ⌊t / d⌋) ht' (fun x hx => hpos x (by simp [hx]))
    refine ⟨by simpa [duration_coeffs] using hrem, ?_⟩
    intro p hp
    simp only [duration_coeffs, List.mem_cons] at hp
    rcases hp with rfl | hp
    · exact ⟨hc, by simp⟩
    · obtain ⟨h1, h2⟩ := hmem p hp
      exact ⟨h1, by simp [h2]⟩

theorem expandCoeffs_sum : ∀ cs : List (ℚ × ℤ), (∀ p ∈ cs, 0 ≤ p.2) →
    (expandCoeffs cs).sum = (cs.map fun p => p.1 * (p.2 : ℚ)).sum := by
  intro cs
  induction cs with
  | nil => intro _; rfl
  | cons p ps ih =>
    intro h
    rw [expandCoeffs, List.sum_append, List.sum_replicate,
      ih fun q hq => h q (by simp [hq]), List.map_cons, List.sum_cons]
    have hcast : ((p.2.toNat : ℤ) : ℚ) = (p.2 : ℚ) := by
      rw [Int.toNat_of_nonneg (h p (by simp))]
    rw [nsmul_eq_mul]
    push_cast at hcast ⊢
    rw [hcast, mul_comm]

theorem expandCoeffs_mem : ∀ (cs : List (ℚ × ℤ)) (s : ℚ),
    s ∈ expandCoeffs cs → ∃ p ∈ cs, s = p.1 := by
  intro cs
  induction cs with
  | nil => intro s hs; cases hs
  | cons p ps ih =>
    intro s hs
    rw [expandCoeffs, List.mem_append] at hs
    rcases hs with hs | hs
    · exact ⟨p, by simp, List.eq_of_mem_replicate hs⟩
    · obtain ⟨q, hq1, hq2⟩ := ih s hs
      exact ⟨q, by simp [hq1], hq2⟩

theorem DURATIONS_pos : ∀ d ∈ DURATIONS, 0 < d := by
  intro d hd
  fin_cases hd <;> norm_num

theorem lilypond_duration_eq (note : Note) :
    lilypond_duration note =
      if note.duration.evaluate ≤ 0 then none
      else if (duration_coeffs (lily_residual note.duration.evaluate)
          DURATIONS).2 ≠ 0 then none
      else some ⟨expandCoeffs (duration_coeffs
            (lily_residual note.duration.evaluate) DURATIONS).1,
          if (factorize note.duration.evaluate.den).2 = 1 then none
          else some ((factorize note.duration.evaluate.den).2,
            2 ^ Nat.log 2 (factorize note.duration.evaluate.den).2)⟩ := rfl

/-- Claim C3 (amended): for a note of positive exact rational duration the
denominator splits as `P * O` with `P` a power of two and `O` odd, the
rescale factor is the largest power of two at most `O`, the residual
written as a sum of table entries is the duration NUMERATOR divided by
`P * R` (equivalently the duration times `O / R`; the spec sentence
instead divides the whole duration by `P * R`), the encode is fatal when
the divmod chain leaves a remainder, each matched entry contributes its
copies of symbols, and an `O:R` tuplet wraps the chain whenever `O ≠ 1`. -/
theorem lilypond_duration_spec (note : Note)
    (hpos : 0 < note.duration.evaluate) :
    (factorize note.duration.evaluate.den).1
        * (factorize note.duration.evaluate.den).2
        = note.duration.evaluate.den
    ∧ (factorize note.duration.evaluate.den).2 % 2 = 1
    ∧ (∃ i, (factorize note.duration.evaluate.den).1 = 2 ^ i)
    ∧ 2 ^ Nat.log 2 (factorize note.duration.evaluate.den).2
        ≤ (factorize note.duration.evaluate.den).2
    ∧ (factorize note.duration.evaluate.den).2
        < 2 * 2 ^ Nat.log 2 (factorize note.duration.evaluate.den).2
    ∧ ((duration_coeffs (lily_residual note.duration.evaluate) DURATIONS).2 ≠ 0
        → lilypond_duration note = none)
    ∧ ((duration_coeffs (lily_residual note.duration.evaluate) DURATIONS).2 = 0
        → lilypond_duration note
            = some ⟨expandCoeffs (duration_coeffs
                  (lily_residual note.duration.evaluate) DURATIONS).1,
                if (factorize note.duration.evaluate.den).2 = 1 then none
                else some ((factorize note.duration.evaluate.den).2,
                  2 ^ Nat.log 2 (factorize note.duration.evaluate.den).2)⟩
          ∧ (expandCoeffs (duration_coeffs
              (lily_residual note.duration.evaluate) DURATIONS).1).sum
              = lily_residual note.duration.evaluate
          ∧ ∀ s ∈ expandCoeffs (duration_coeffs
              (lily_residual note.duration.evaluate) DURATIONS).1,
              s ∈ DURATIONS) := by
  have hden : note.duration.evaluate.den ≠ 0 := note.duration.evaluate.den_nz
  obtain ⟨hprod, hodd, hpow⟩ := factorize_spec note.duration.evaluate.den hden
  have hO : (factorize note.duration.evaluate.den).2 ≠ 0 := by omega
  have hlog1 := Nat.pow_log_le_self 2 hO
  have hlog2 := Nat.lt_pow_succ_log_self (b := 2) (by norm_num)
    (factorize note.duration.evaluate.den).2
  rw [pow_succ] at hlog2
  have ht0 : 0 ≤ lily_residual note.duration.evaluate := by
    rw [lily_residual]
    apply div_nonneg
    · exact_mod_cast (Rat.num_pos.mpr hpos).le
    · positivity
  obtain ⟨hrem0, hcmem⟩ :=
    duration_coeffs_props DURATIONS (lily_residual note.duration.evaluate)
      ht0 DURATIONS_pos
  refine ⟨hprod, hodd, hpow, hlog1, by omega, ?_, ?_⟩
  · intro h
    rw [lilypond_duration_eq, if_neg (not_le.mpr hpos), if_pos h]
  · intro h
    refine ⟨?_, ?_, ?_⟩
    · rw [lilypond_duration_eq, if_neg (not_le.mpr hpos),
        if_neg (not_not_intro h)]
    · rw [expandCoeffs_sum _ fun p hp => (hcmem p hp).1]
      have := duration_coeffs_sum DURATIONS (lily_residual note.duration.evaluate)
      rw [h] at this
      linarith
    · intro s hs
      obtain ⟨p, hp1, hp2⟩ := expandCoeffs_mem _ s hs
      rw [hp2]
      exact (hcmem p hp1).2

theorem lilypond_duration_spec_witness :
    (0 : ℚ) < Quantity.evaluate (.frac (3 / 5))
      ∧ ((factorize (Quantity.evaluate
            (Quantity.frac (3 / 5))).den).1
          * (factorize (Quantity.evaluate
            (Quantity.frac (3 / 5))).den).2
          = (Quantity.evaluate (Quantity.frac (3 / 5))).den
        ∧ (factorize (Quantity.evaluate (Quantity.frac (3 / 5))).den).2 % 2 = 1
        ∧ (∃ i, (factorize (Quantity.evaluate
            (Quantity.frac (3 / 5))).den).1 = 2 ^ i)
        ∧ 2 ^ Nat.log 2 (factorize (Quantity.evaluate
            (Quantity.frac (3 / 5))).den).2
            ≤ (factorize (Quantity.evaluate (Quantity.frac (3 / 5))).den).2
        ∧ (factorize (Quantity.evaluate (Quantity.frac (3 / 5))).den).2
            < 2 * 2 ^ Nat.log 2 (factorize (Quantity.evaluate
                (Quantity.frac (3 / 5))).den).2
        ∧ ((duration_coeffs (lily_residual (Quantity.evaluate
              (Quantity.frac (3 / 5)))) DURATIONS).2 ≠ 0
            → lilypond_duration (Note.mk (.frac 1) (.frac (3 / 5)) (.frac 1))
                = none)
        ∧ ((duration_coeffs (lily_residual (Quantity.evaluate
              (Quantity.frac (3 / 5)))) DURATIONS).2 = 0
            → lilypond_duration (Note.mk (.frac 1) (.frac (3 / 5)) (.frac 1))
                = some ⟨expandCoeffs (duration_coeffs
                      (lily_residual (Quantity.evaluate
                        (Quantity.frac (3 / 5)))) DURATIONS).1,
                    if (factorize (Quantity.evaluate
                        (Quantity.frac (3 / 5))).den).2 = 1 then none
                    else some ((factorize (Quantity.evaluate
                        (Quantity.frac (3 / 5))).den).2,
                      2 ^ Nat.log 2 (factorize (Quantity.evaluate
                        (Quantity.frac (3 / 5))).den).2)⟩
              ∧ (expandCoeffs (duration_coeffs
                  (lily_residual (Quantity.evaluate
                    (Quantity.frac (3 / 5)))) DURATIONS).1).sum
                  = lily_residual (Quantity.evaluate (Quantity.frac (3 / 5)))
              ∧ ∀ s ∈ expandCoeffs (duration_coeffs
                  (lily_residual (Quantity.evaluate
                    (Quantity.frac (3 / 5)))) DURATIONS).1,
                  s ∈ DURATIONS)) :=
  ⟨by norm_num [Quantity.evaluate],
    lilypond_duration_spec (Note.mk (.frac 1) (.frac (3 / 5)) (.frac 1))
      (by norm_num [Quantity.evaluate])⟩

/-- Claim C3, counterexample to the sentence as stated: at duration 1/2
the source divides the NUMERATOR by `P * R`, giving residual 1/2 and an
eighth-note symbol, while dividing the duration itself by `P * R` as the
sentence says gives residual 1/4 and a sixteenth-note symbol. -/
theorem lilypond_duration_residual_cex :
    lilypond_duration (Note.mk (.frac 1) (.frac (1 / 2)) (.frac 1))
        = some ⟨[1 / 2], none⟩
    ∧ lilypond_duration_specResidual (Note.mk (.frac 1) (.frac (1 / 2)) (.frac 1))
        = some ⟨[1 / 4], none⟩
    ∧ lilypond_duration_specResidual (Note.mk (.frac 1) (.frac (1 / 2)) (.frac 1))
        ≠ lilypond_duration (Note.mk (.frac 1) (.frac (1 / 2)) (.frac 1)) := by
  have hden : ((1 : ℚ) / 2).den = 2 := by norm_num
  have hnum : ((1 : ℚ) / 2).num = 1 := by norm_num
  have hlog : Nat.log 2 1 = 0 := Nat.log_one_right 2
  have hres : lily_residual ((1 : ℚ) / 2) = 1 / 2 := by
    rw [lily_residual, hden, hnum, factorize_two]
    norm_num [hlog]
  have hdc : duration_coeffs ((1 : ℚ) / 2) DURATIONS
      = ([(4, 0), (2, 0), (1, 0), (1 / 2, 1), (1 / 4, 0), (1 / 8, 0),
          (1 / 16, 0), (1 / 32, 0)], 0) := by
    norm_num [duration_coeffs, DURATIONS]
  have hdc4 : duration_coeffs ((1 : ℚ) / 4) DURATIONS
      = ([(4, 0), (2, 0), (1, 0), (1 / 2, 0), (1 / 4, 1), (1 / 8, 0),
          (1 / 16, 0), (1 / 32, 0)], 0) := by
    norm_num [duration_coeffs, DURATIONS]
  have hcode : lilypond_duration (Note.mk (.frac 1) (.frac (1 / 2)) (.frac 1))
      = some ⟨[1 / 2], none⟩ := by
    rw [lilypond_duration_eq]
    norm_num [Quantity.evaluate, hres, hdc, hden, factorize_two,
      expandCoeffs, List.replicate]
  have hspec : lilypond_duration_specResidual
      (Note.mk (.frac 1) (.frac (1 / 2)) (.frac 1)) = some ⟨[1 / 4], none⟩ := by
    simp only [lilypond_duration_specResidual, Quantity.evaluate]
    norm_num [hden, factorize_two, hlog, hdc4, expandCoeffs, List.replicate]
  refine ⟨hcode, hspec, ?_⟩
  intro hcontra
  rw [hcode, hspec] at hcontra
  norm_num at hcontra

end Jird
